import Mathlib

/-!
Verification development for the resilient tool-call decoder of this
repository (codex-cli/src/utils/parsers.ts together with
codex-cli/src/utils/debug-logger.ts).

Strings of the JavaScript runtime are embedded as `List Char`.  The
platform functions JSON.parse and the ToString coercion used by the
string concatenation operator are modelled below, following the JSON
grammar that JSON.parse implements.  Two documented approximations to
the platform, both unreachable from any statement proved here:
numbers are exact rationals instead of IEEE doubles, and a \uXXXX
escape denoting a lone UTF-16 surrogate is mapped to U+FFFD because a
Lean Char holds only Unicode scalar values.
-/

namespace DeepseekCodex

/-- The open-brace character, written numerically. -/
def obrace : Char := Char.ofNat 123

/-- The close-brace character, written numerically. -/
def cbrace : Char := Char.ofNat 125

/-- A JSON number value: the exact scaled decimal m divided by ten to
the e, kept in canonical form (e is zero, or m is not a multiple of
ten), so that two texts denoting the same numeric value map to the
same term.  This embeds the numeric values JSON.parse can produce;
rounding to IEEE doubles is not modelled. -/
structure Dec where
  m : ℤ
  e : ℕ
deriving DecidableEq

/-- Canonicity predicate for Dec. -/
def Dec.IsNormal (d : Dec) : Prop := d.e = 0 ∨ d.m % 10 ≠ 0

/-- Strip common factors of ten; the fuel bounds the strip count and
the scale itself suffices. -/
def stripDec : Nat → ℤ → Nat → Dec
  | 0, m, e => ⟨m, e⟩
  | fuel + 1, m, e =>
    if e = 0 then ⟨m, 0⟩
    else if m % 10 = 0 then stripDec fuel (m / 10) (e - 1)
    else ⟨m, e⟩

/-- The canonical Dec with value m divided by ten to the e. -/
def normDec (m : ℤ) (e : Nat) : Dec := stripDec e m e

/-- The canonical Dec with value m times ten to the z. -/
def mkDec (m : ℤ) (z : ℤ) : Dec :=
  if 0 ≤ z then ⟨m * 10 ^ z.toNat, 0⟩ else normDec m (-z).toNat

/-- Negation of a Dec; canonical form is preserved. -/
def negDec (d : Dec) : Dec := ⟨-d.m, d.e⟩

/-- JavaScript values as produced by JSON.parse: null, booleans,
numbers, strings, arrays and objects (an object is its ordered list of
key/value pairs). -/
inductive JsValue where
  | null : JsValue
  | bool (b : Bool) : JsValue
  | num (d : Dec) : JsValue
  | str (s : List Char) : JsValue
  | arr (elems : List JsValue) : JsValue
  | obj (fields : List (List Char × JsValue)) : JsValue

/-- JSON whitespace characters (space, tab, line feed, carriage return). -/
def isWs (c : Char) : Bool :=
  c = ' ' || c = '\t' || c = '\n' || c = Char.ofNat 13

/-- Drop leading JSON whitespace. -/
def skipWs : List Char → List Char
  | [] => []
  | c :: cs => if isWs c then skipWs cs else c :: cs

/-- Decimal digit test. -/
def isDigit (c : Char) : Bool := '0' ≤ c && c ≤ '9'

/-- Value of a decimal digit character. -/
def digitVal (c : Char) : Nat := c.toNat - 48

/-- Hexadecimal digit value, case insensitive as in the JSON grammar. -/
def hexVal (c : Char) : Option Nat :=
  if '0' ≤ c && c ≤ '9' then some (c.toNat - 48)
  else if 'a' ≤ c && c ≤ 'f' then some (c.toNat - 87)
  else if 'A' ≤ c && c ≤ 'F' then some (c.toNat - 55)
  else none

/-- Split off the longest prefix of decimal digits. -/
def takeDigits : List Char → List Char × List Char
  | [] => ([], [])
  | c :: cs =>
    if isDigit c then
      let p := takeDigits cs
      (c :: p.1, p.2)
    else ([], c :: cs)

/-- Accumulating left-to-right decimal evaluation of a digit list. -/
def digitsToNatFrom (a : Nat) : List Char → Nat
  | [] => a
  | c :: cs => digitsToNatFrom (a * 10 + digitVal c) cs

/-- Decimal value of a digit list, most significant digit first. -/
def digitsToNat (ds : List Char) : Nat := digitsToNatFrom 0 ds

/-- Body of a JSON string after the opening quote: characters until the
closing quote, with the escape sequences of the JSON grammar.  A raw
control character is a syntax error, as in JSON.parse.  The fuel bounds
the number of produced characters; each step consumes at least one
input character, so an amount of fuel beyond the input length never
runs out. -/
def parseStringBody : Nat → List Char → Option (List Char × List Char)
  | 0, _ => none
  | _ + 1, [] => none
  | fuel + 1, c :: cs =>
    if c = '"' then some ([], cs)
    else if c = '\\' then
      match cs with
      | [] => none
      | e :: cs2 =>
        if e = '"' then (parseStringBody fuel cs2).map (fun p => ('"' :: p.1, p.2))
        else if e = '\\' then (parseStringBody fuel cs2).map (fun p => ('\\' :: p.1, p.2))
        else if e = '/' then (parseStringBody fuel cs2).map (fun p => ('/' :: p.1, p.2))
        else if e = 'b' then (parseStringBody fuel cs2).map (fun p => (Char.ofNat 8 :: p.1, p.2))
        else if e = 'f' then (parseStringBody fuel cs2).map (fun p => (Char.ofNat 12 :: p.1, p.2))
        else if e = 'n' then (parseStringBody fuel cs2).map (fun p => ('\n' :: p.1, p.2))
        else if e = 'r' then (parseStringBody fuel cs2).map (fun p => (Char.ofNat 13 :: p.1, p.2))
        else if e = 't' then (parseStringBody fuel cs2).map (fun p => ('\t' :: p.1, p.2))
        else if e = 'u' then
          match cs2 with
          | h1 :: h2 :: h3 :: h4 :: cs3 =>
            match hexVal h1, hexVal h2, hexVal h3, hexVal h4 with
            | some a, some b, some c3, some d =>
              let n := ((a * 16 + b) * 16 + c3) * 16 + d
              -- A lone surrogate code unit cannot inhabit a Lean Char;
              -- it is mapped to the replacement character U+FFFD.
              let ch := if 0xD800 ≤ n ∧ n ≤ 0xDFFF then Char.ofNat 0xFFFD else Char.ofNat n
              (parseStringBody fuel cs3).map (fun p => (ch :: p.1, p.2))
            | _, _, _, _ => none
          | _ => none
        else none
    else if c.toNat < 32 then none
    else (parseStringBody fuel cs).map (fun p => (c :: p.1, p.2))

/-- True when a digit list starts with a superfluous leading zero,
which the JSON number grammar rejects. -/
def leadingZeroBad : List Char → Bool
  | c :: _ :: _ => c = '0'
  | _ => false

/-- JSON number after an optional leading minus sign: integer part,
optional fraction, optional exponent, evaluated exactly as a scaled
decimal. -/
def parseNumAfterSign (s : List Char) : Option (Dec × List Char) :=
  let p1 := takeDigits s
  if p1.1 = [] then none
  else if leadingZeroBad p1.1 then none
  else
    let ival : ℕ := digitsToNat p1.1
    let fracPart : Option (ℕ × ℕ × List Char) :=
      match p1.2 with
      | [] => some (0, 0, [])
      | c :: t =>
        if c = '.' then
          let p2 := takeDigits t
          if p2.1 = [] then none else some (digitsToNat p2.1, p2.1.length, p2.2)
        else some (0, 0, c :: t)
    match fracPart with
    | none => none
    | some (fval, flen, s3) =>
      let expPart : Option (ℤ × List Char) :=
        match s3 with
        | c :: t =>
          if c = 'e' ∨ c = 'E' then
            let sgnRest : ℤ × List Char :=
              match t with
              | [] => (1, [])
              | d :: u =>
                if d = '+' then (1, u)
                else if d = '-' then (-1, u)
                else (1, d :: u)
            let p3 := takeDigits sgnRest.2
            if p3.1 = [] then none
            else some (sgnRest.1 * (digitsToNat p3.1 : ℤ), p3.2)
          else some (0, c :: t)
        | [] => some (0, [])
      match expPart with
      | none => none
      | some (ev, s4) =>
        some (mkDec ((ival : ℤ) * 10 ^ flen + (fval : ℤ)) (ev - (flen : ℤ)), s4)

/-- JSON number, with optional leading minus sign. -/
def parseNumber (s : List Char) : Option (Dec × List Char) :=
  match s with
  | [] => none
  | c :: t =>
    if c = '-' then (parseNumAfterSign t).map (fun p => (negDec p.1, p.2))
    else parseNumAfterSign (c :: t)

mutual

/-- One JSON value together with the unconsumed remainder, following
the grammar implemented by JSON.parse.  The fuel decreases on each
nested value and on each object member or array element, and at least
one input character is consumed alongside every decrease, so a fuel
beyond the input length never runs out. -/
def parseValue : Nat → List Char → Option (JsValue × List Char)
  | 0, _ => none
  | fuel + 1, input =>
    match skipWs input with
    | [] => none
    | c :: cs =>
      if c = obrace then
        match skipWs cs with
        | [] => none
        | d :: ds =>
          if d = cbrace then some (JsValue.obj [], ds)
          else parseMembers fuel (d :: ds) []
      else if c = '[' then
        match skipWs cs with
        | [] => none
        | d :: ds =>
          if d = ']' then some (JsValue.arr [], ds)
          else parseElements fuel (d :: ds) []
      else if c = '"' then
        (parseStringBody (cs.length + 1) cs).map (fun p => (JsValue.str p.1, p.2))
      else if c = 't' then
        if cs.take 3 = ['r', 'u', 'e'] then some (JsValue.bool true, cs.drop 3) else none
      else if c = 'f' then
        if cs.take 4 = ['a', 'l', 's', 'e'] then some (JsValue.bool false, cs.drop 4) else none
      else if c = 'n' then
        if cs.take 3 = ['u', 'l', 'l'] then some (JsValue.null, cs.drop 3) else none
      else if c = '-' ∨ isDigit c then
        (parseNumber (c :: cs)).map (fun p => (JsValue.num p.1, p.2))
      else none

/-- Member list of a JSON object: a quoted key, a colon, a value, then
either a comma and further members or the closing brace. -/
def parseMembers : Nat → List Char → List (List Char × JsValue) →
    Option (JsValue × List Char)
  | 0, _, _ => none
  | fuel + 1, s, acc =>
    match skipWs s with
    | [] => none
    | c :: cs =>
      if c = '"' then
        match parseStringBody (cs.length + 1) cs with
        | none => none
        | some (key, r1) =>
          match skipWs r1 with
          | [] => none
          | d :: r2 =>
            if d = ':' then
              match parseValue fuel r2 with
              | none => none
              | some (v, r3) =>
                match skipWs r3 with
                | [] => none
                | d2 :: r4 =>
                  if d2 = ',' then parseMembers fuel r4 (acc ++ [(key, v)])
                  else if d2 = cbrace then some (JsValue.obj (acc ++ [(key, v)]), r4)
                  else none
            else none
      else none

/-- Element list of a JSON array: a value, then either a comma and
further elements or the closing bracket. -/
def parseElements : Nat → List Char → List JsValue → Option (JsValue × List Char)
  | 0, _, _ => none
  | fuel + 1, s, acc =>
    match parseValue fuel s with
    | none => none
    | some (v, r1) =>
      match skipWs r1 with
      | [] => none
      | d :: r2 =>
        if d = ',' then parseElements fuel r2 (acc ++ [v])
        else if d = ']' then some (JsValue.arr (acc ++ [v]), r2)
        else none

end

/-- The model of JSON.parse: one JSON value covering the whole input up
to trailing whitespace; anything else is a syntax error, rendered as
none. -/
def jsonParse (s : List Char) : Option JsValue :=
  match parseValue (s.length + 1) s with
  | some (v, rest) => if skipWs rest = [] then some v else none
  | none => none

/-- Decimal digit character for a value below ten. -/
def digitChar (d : Nat) : Char := Char.ofNat (48 + d)

/-- Lowercase hexadecimal digit character for a value below sixteen. -/
def hexChar (d : Nat) : Char :=
  if d < 10 then Char.ofNat (48 + d) else Char.ofNat (87 + d)

/-- Big-endian digit emission; the fuel bounds the digit count and an
amount beyond the number itself never runs out. -/
def natToDigitsAux : Nat → Nat → List Char → List Char
  | 0, _, acc => acc
  | fuel + 1, n, acc =>
    if n = 0 then acc else natToDigitsAux fuel (n / 10) (digitChar (n % 10) :: acc)

/-- Decimal digits of a natural number, most significant first. -/
def natToDigits (n : Nat) : List Char :=
  if n = 0 then ['0'] else natToDigitsAux (n + 1) n []

/-- Left-pad a digit list with zeros to the given width. -/
def padLeftZeros (k : Nat) (ds : List Char) : List Char :=
  List.replicate (k - ds.length) '0' ++ ds

/-- Plain decimal notation for a canonical scaled decimal: sign,
integer digits, and a fractional part exactly when the scale is
positive.  On canonical values this is both the JavaScript number
ToString and the JSON.stringify number form; the exponent notation
JavaScript switches to at extreme magnitudes is not modelled and is
unreachable from every statement proved in this file. -/
def numToChars (d : Dec) : List Char :=
  (if d.m < 0 then ['-'] else []) ++ natToDigits (d.m.natAbs / 10 ^ d.e) ++
    (if d.e = 0 then [] else '.' :: padLeftZeros d.e (natToDigits (d.m.natAbs % 10 ^ d.e)))

/-- Comma joining as in Array.prototype.join. -/
def joinCommas : List (List Char) → List Char
  | [] => []
  | [x] => x
  | x :: y :: rest => x ++ ',' :: joinCommas (y :: rest)

/-- Test for the null value. -/
def isNullV : JsValue → Bool
  | JsValue.null => true
  | _ => false

/-- JavaScript ToString of a value, as applied by the string
concatenation operator in the recovery stages.  Array elements convert
like their value, except that a null element becomes the empty string
under Array.prototype.join. -/
def jsToStrV : JsValue → List Char
  | JsValue.null => String.toList "null"
  | JsValue.bool b => if b then String.toList "true" else String.toList "false"
  | JsValue.num d => numToChars d
  | JsValue.str s => s
  | JsValue.arr es =>
    joinCommas (es.attach.map (fun v => if isNullV v.1 then [] else jsToStrV v.1))
  | JsValue.obj _ => String.toList "[object Object]"
decreasing_by
  have h := List.sizeOf_lt_of_mem v.2
  simp only [JsValue.arr.sizeOf_spec]
  omega

/-- JavaScript ToString of a possibly-undefined value, as produced by
property access followed by string concatenation. -/
def jsToString : Option JsValue → List Char
  | none => String.toList "undefined"
  | some v => jsToStrV v

/-- The value returned by parseToolCallOutput: the output and metadata
properties of the decoded object.  Either can be the JavaScript
undefined, rendered as none, because the source never checks their
presence on the stage 1 and stage 2 paths. -/
structure DecodeResult where
  output : Option JsValue
  metadata : Option JsValue

/-- The output property name. -/
def outputKey : List Char := String.toList "output"

/-- The metadata property name. -/
def metadataKey : List Char := String.toList "metadata"

/-- The exit_code property name. -/
def exitCodeKey : List Char := String.toList "exit_code"

/-- The duration_seconds property name. -/
def durationSecondsKey : List Char := String.toList "duration_seconds"

/-- Property lookup in an object member list; a later duplicate key
shadows an earlier one, as in a JavaScript object literal built by
JSON.parse. -/
def getFieldIn : List (List Char × JsValue) → List Char → Option JsValue
  | [], _ => none
  | kv :: rest, k =>
    match getFieldIn rest k with
    | some r => some r
    | none => if kv.1 = k then some kv.2 else none

/-- JavaScript property access for the keys used by the decoder:
defined on objects, undefined on every other value. -/
def getField (v : JsValue) (k : List Char) : Option JsValue :=
  match v with
  | JsValue.obj kvs => getFieldIn kvs k
  | _ => none

/-- The JavaScript in-operator for the keys used by the decoder; the
decoder only applies it to values passing the typeof object test. -/
def hasField (v : JsValue) (k : List Char) : Bool :=
  match v with
  | JsValue.obj kvs => kvs.any (fun kv => decide (kv.1 = k))
  | _ => false

/-- The JavaScript test typeof v === "object", true on objects, arrays
and null. -/
def isJsObjectType : JsValue → Bool
  | JsValue.obj _ => true
  | JsValue.arr _ => true
  | JsValue.null => true
  | _ => false

/-- The annotation stage 2 appends to the recovered output. -/
def stage2Note : List Char :=
  String.toList "\n[Note: Response was truncated and automatically fixed]"

/-- The annotation stage 3 appends to the recovered output. -/
def stage3Note : List Char :=
  String.toList "\n[Note: Response was truncated but a valid portion was recovered]"

/-- The fallback literal when truncation is suspected. -/
def truncMsg : List Char :=
  String.toList "Response appears to be truncated due to token limits. Try a smaller command output or check logs for details."

/-- The fallback literal for a generic parse failure. -/
def genericMsg : List Char :=
  String.toList "Failed to parse JSON result. Check logs for details."

/-- Stage 1 of parseToolCallOutput (parsers.ts lines 51 to 55): parse
the raw text and destructure the output and metadata properties.
Destructuring null throws, and the throw is caught by the recovery
handler, so a null parse result behaves like a parse failure; any
other parse result succeeds, with absent properties giving the
JavaScript undefined. -/
def stage1 (raw : List Char) : Option DecodeResult :=
  match jsonParse raw with
  | none => none
  | some v =>
    if isNullV v then none
    else some ⟨getField v outputKey, getField v metadataKey⟩

/-- JavaScript String.prototype.lastIndexOf for a single character,
with -1 rendered as none. -/
def lastIndexOfChar (s : List Char) (c : Char) : Option Nat :=
  (List.range s.length).foldl
    (fun best i => if s[i]? = some c then some i else best) none

/-- The inner scan of parsers.ts lines 97 to 106: starting just after
an open brace with depth one, update the depth on each brace and stop
as soon as it returns to zero. -/
def hasMatchingClose : List Char → Nat → Bool
  | [], _ => false
  | c :: cs, count =>
    let count2 := if c = obrace then count + 1 else if c = cbrace then count - 1 else count
    if count2 = 0 then true else hasMatchingClose cs count2

/-- The condition under which the scan of parsers.ts lines 94 to 108
records position i as a candidate start. -/
def startCond (raw : List Char) (i : Nat) : Bool :=
  decide (raw[i]? = some obrace) && hasMatchingClose (raw.drop (i + 1)) 1

/-- The outer scan of parsers.ts lines 93 to 108: for every position
from zero through the last open brace, overwrite the start with the
position whenever the condition holds; zero if it never holds. -/
def findStart (raw : List Char) (limit : Nat) : Nat :=
  (List.range (limit + 1)).foldl (fun start i => if startCond raw i then i else start) 0

/-- Stage 2 of parseToolCallOutput (parsers.ts lines 69 to 86): append
one closing brace and retry; on success concatenate the annotation to
the output property under the JavaScript ToString coercion.  As in
stage 1, a null result throws inside the guarded region and falls
through. -/
def stage2 (raw : List Char) : Option DecodeResult :=
  match jsonParse (raw ++ [cbrace]) with
  | none => none
  | some v =>
    if isNullV v then none
    else some ⟨some (JsValue.str (jsToString (getField v outputKey) ++ stage2Note)),
               getField v metadataKey⟩

/-- The candidate substring examined by stage 3 (parsers.ts line 111):
from the recorded start through the last close brace inclusive. -/
def stage3Candidate (raw : List Char) (lastOpen lastClose : Nat) : List Char :=
  let start := findStart raw lastOpen
  (raw.drop start).take (lastClose + 1 - start)

/-- Stage 3 of parseToolCallOutput (parsers.ts lines 89 to 130): parse
the candidate substring and require the typeof object test, a non-null
value and the presence of both keys before returning the annotated
output. -/
def stage3 (raw : List Char) (lastOpen lastClose : Nat) : Option DecodeResult :=
  match jsonParse (stage3Candidate raw lastOpen lastClose) with
  | none => none
  | some v =>
    if isJsObjectType v && !isNullV v && hasField v outputKey && hasField v metadataKey then
      some ⟨some (JsValue.str (jsToString (getField v outputKey) ++ stage3Note)),
            getField v metadataKey⟩
    else none

/-- The recovery chain of parsers.ts lines 61 to 131: nothing on empty
input; stage 2 exactly when an open brace exists and no close brace
follows it; stage 3 exactly when a close brace exists strictly after
the last open brace. -/
def recoveryStages (raw : List Char) : Option DecodeResult :=
  if raw.length = 0 then none
  else
    match lastIndexOfChar raw obrace, lastIndexOfChar raw cbrace with
    | none, _ => none
    | some _, none => stage2 raw
    | some lo, some lc =>
      if lc < lo then stage2 raw
      else if lo < lc then stage3 raw lo lc
      else none

/-- The truncation guess of parsers.ts lines 154 to 156: non-empty, not
ending in a close brace, containing an open brace. -/
def possibleTruncation (raw : List Char) : Bool :=
  !raw.isEmpty && !(decide (raw.getLast? = some cbrace)) && raw.contains obrace

/-- The terminal value of parsers.ts lines 174 to 180: one of the two
literal messages, with exit code one and zero duration. -/
def fallbackResult (raw : List Char) : DecodeResult :=
  ⟨some (JsValue.str (if possibleTruncation raw then truncMsg else genericMsg)),
   some (JsValue.obj [(exitCodeKey, JsValue.num ⟨1, 0⟩),
                      (durationSecondsKey, JsValue.num ⟨0, 0⟩)])⟩

/-- The full decoder parseToolCallOutput: stage 1, then the recovery
chain, then the fallback. -/
def parseToolCallOutput (raw : List Char) : DecodeResult :=
  match stage1 raw with
  | some r => r
  | none =>
    match recoveryStages raw with
    | some r => r
    | none => fallbackResult raw

/-- The command descriptor built by parseToolCallArguments; the field
names follow the ExecInput shape the source returns. -/
structure ExecInput where
  cmd : List (List Char)
  workdir : Option (List Char)
  timeoutInMillis : Option Dec

/-- The cmd property name. -/
def cmdKey : List Char := String.toList "cmd"

/-- The command property name. -/
def commandKey : List Char := String.toList "command"

/-- The workdir property name. -/
def workdirKey : List Char := String.toList "workdir"

/-- The timeout property name. -/
def timeoutKey : List Char := String.toList "timeout"

/-- Test for a string value. -/
def isStrV : JsValue → Bool
  | JsValue.str _ => true
  | _ => false

/-- The string content of a value known to be a string. -/
def getStrV : JsValue → List Char
  | JsValue.str s => s
  | _ => []

/-- toStringArray of parsers.ts lines 247 to 254: the element list when
the value is an array whose every element is a string, undefined
otherwise. -/
def toStringArray (v : Option JsValue) : Option (List (List Char)) :=
  match v with
  | some (JsValue.arr items) =>
    if items.all isStrV then some (items.map getStrV) else none
  | _ => none

/-- parseToolCallArguments of parsers.ts lines 217 to 245: parse the
arguments, require a non-null value of object type, extract a string
array from the cmd key or else the command key, and pass workdir and
timeout through only when they have the right runtime type. -/
def parseToolCallArguments (raw : List Char) : Option ExecInput :=
  match jsonParse raw with
  | none => none
  | some v =>
    if !isJsObjectType v then none
    else if isNullV v then none
    else
      let arrOpt : Option (List (List Char)) :=
        match toStringArray (getField v cmdKey) with
        | some a => some a
        | none => toStringArray (getField v commandKey)
      match arrOpt with
      | none => none
      | some commandArray =>
        some ⟨commandArray,
              (match getField v workdirKey with
               | some (JsValue.str s) => some s
               | _ => none),
              (match getField v timeoutKey with
               | some (JsValue.num d) => some d
               | _ => none)⟩

/-- The process environment as seen by the diagnostic subsystem: only
the presence of the DEBUG switch matters. -/
structure DebugEnv where
  debug : Bool

/-- A persisted diagnostic artifact: a structured record file or a raw
content file under the debug-logs directory (debug-logger.ts), or the
error log file the decoder itself writes under the logs directory
(parsers.ts writeErrorLog).  Only the fact and category of a write is
modelled, not the record content or the timestamped file name; the
claims under study concern only whether writes occur. -/
inductive Artifact where
  | debugLogFile (category : List Char) : Artifact
  | debugRawFile (category : List Char) : Artifact
  | errorLogFile : Artifact
deriving DecidableEq

/-- DebugLogger.logCommandExecution (debug-logger.ts lines 14 to 36):
an immediate return when the switch is off, otherwise one structured
record write. -/
def logCommandExecution (env : DebugEnv) (_cmd : List (List Char)) (_output : List Char)
    (_exitCode : ℤ) (_duration : Dec) : List Artifact :=
  if !env.debug then []
  else [Artifact.debugLogFile (String.toList "command-output")]

/-- DebugLogger.logJsonParseAttempt (debug-logger.ts lines 41 to 85):
an immediate return when the switch is off, otherwise one structured
record write, plus the raw content write on failure. -/
def logJsonParseAttempt (env : DebugEnv) (_jsonString : List Char) (success : Bool) :
    List Artifact :=
  if !env.debug then []
  else
    [Artifact.debugLogFile
      (if success then String.toList "json-parse-success" else String.toList "json-parse-error")] ++
    (if success then [] else [Artifact.debugRawFile (String.toList "failed-json-raw")])

/-- The truncation look test of debug-logger.ts line 110, with the
JavaScript minus-one index convention. -/
def truncatedLook (output : List Char) : Bool :=
  output.contains obrace &&
    (match lastIndexOfChar output cbrace, lastIndexOfChar output obrace with
     | _, none => false
     | none, some _ => true
     | some lc, some lo => decide (lc < lo))

/-- Count of characters in the JavaScript control ranges matched by the
regular expression of debug-logger.ts line 122. -/
def countControl (s : List Char) : Nat :=
  s.countP (fun c => decide (c.toNat ≤ 31) || (decide (127 ≤ c.toNat) && decide (c.toNat ≤ 159)))

/-- The issue list assembled by DebugLogger.analyzeToolCallOutput
(debug-logger.ts lines 105 to 125), in push order. -/
def analyzeIssues (output : List Char) : List (List Char) :=
  (if output.length > 100000
   then [String.toList "Output exceeds 100KB - may hit API token limits"] else []) ++
  (if truncatedLook output
   then [String.toList "JSON appears to be truncated - missing closing braces"] else []) ++
  (if output.count obrace ≠ output.count cbrace
   then [String.toList "Unbalanced JSON structure: " ++ natToDigits (output.count obrace) ++
         String.toList " open braces vs " ++ natToDigits (output.count cbrace) ++
         String.toList " close braces"] else []) ++
  (if 0 < countControl output
   then [String.toList "Contains " ++ natToDigits (countControl output) ++
         String.toList " control characters that may corrupt JSON"] else [])

/-- DebugLogger.analyzeToolCallOutput (debug-logger.ts lines 90 to
143): an immediate return when the switch is off, otherwise one
structured record write, plus the raw content write when any issue was
found. -/
def analyzeToolCallOutput (env : DebugEnv) (_functionName _argsString output : List Char) :
    List Artifact :=
  if !env.debug then []
  else
    [Artifact.debugLogFile (String.toList "tool-call-analysis")] ++
    (if (analyzeIssues output).isEmpty then []
     else [Artifact.debugRawFile (String.toList "problematic-tool-output")])

/-- parseToolCallOutput together with the persisted-write behaviour at
each of its logging call sites (parsers.ts lines 54, 58, 77, 84, 115,
128 and 167): the decode result paired with the list of artifacts the
call attempts to write, in order.  The stage 2 success log (line 77)
runs only after the destructuring, so a null stage 2 parse logs a
failed attempt, and the stage 3 success log (line 115) runs before the
shape check.  The writeErrorLog call at line 167 is reached on the
fallback path unconditionally, whatever the state of the switch. -/
def decodeWithLog (env : DebugEnv) (raw : List Char) : DecodeResult × List Artifact :=
  match stage1 raw with
  | some r => (r, logJsonParseAttempt env raw true)
  | none =>
    let a1 := logJsonParseAttempt env raw false
    if raw.length = 0 then (fallbackResult raw, a1 ++ [Artifact.errorLogFile])
    else
      match lastIndexOfChar raw obrace, lastIndexOfChar raw cbrace with
      | none, _ => (fallbackResult raw, a1 ++ [Artifact.errorLogFile])
      | some lo, lcOpt =>
        let stage2Branch : DecodeResult × List Artifact :=
          match stage2 raw with
          | some r => (r, a1 ++ logJsonParseAttempt env (raw ++ [cbrace]) true)
          | none =>
            (fallbackResult raw,
             a1 ++ logJsonParseAttempt env (raw ++ [cbrace]) false ++ [Artifact.errorLogFile])
        match lcOpt with
        | none => stage2Branch
        | some lc =>
          if lc < lo then stage2Branch
          else if lo < lc then
            match jsonParse (stage3Candidate raw lo lc) with
            | none =>
              (fallbackResult raw,
               a1 ++ logJsonParseAttempt env (stage3Candidate raw lo lc) false ++
                 [Artifact.errorLogFile])
            | some _ =>
              let a3 := logJsonParseAttempt env (stage3Candidate raw lo lc) true
              match stage3 raw lo lc with
              | some r => (r, a1 ++ a3)
              | none => (fallbackResult raw, a1 ++ a3 ++ [Artifact.errorLogFile])
          else (fallbackResult raw, a1 ++ [Artifact.errorLogFile])

/-- One escaped character of a JSON string literal: quote and backslash
get a backslash escape, control characters a four-digit hexadecimal
escape, everything else stands for itself. -/
def escChar (c : Char) : List Char :=
  if c = '"' then ['\\', '"']
  else if c = '\\' then ['\\', '\\']
  else if c.toNat < 32 then
    ['\\', 'u', '0', '0', hexChar (c.toNat / 16), hexChar (c.toNat % 16)]
  else [c]

/-- Escaped body of a JSON string literal. -/
def escapeChars : List Char → List Char
  | [] => []
  | c :: cs => escChar c ++ escapeChars cs

/-- A JSON string literal. -/
def encString (s : List Char) : List Char := '"' :: escapeChars s ++ ['"']

/-- Modelled from the spec: the encoding of a ToolResult value to its
wire text, used by the round-trip property.  The producing side is not
among the provided sources (the callers that build the tool-call
output string are external); the spec describes it only as encoding
the structured object to text, so it is modelled as the standard JSON
serialization of an object with output first and metadata second, the
form JSON.stringify gives it elsewhere in the repository. -/
def encodeToolResult (out : List Char) (ec : ℤ) (dur : Dec) : List Char :=
  obrace :: encString outputKey ++ ':' :: encString out ++
    ',' :: encString metadataKey ++ ':' ::
      (obrace :: encString exitCodeKey ++ ':' :: numToChars ⟨ec, 0⟩ ++
        ',' :: encString durationSecondsKey ++ ':' :: numToChars dur ++ [cbrace]) ++ [cbrace]

/-- The payload of claim C2: a tool result object whose outermost close
brace is missing, while its inner metadata object is closed. -/
def payloadC2 : List Char :=
  String.toList "\x7b\"output\":\"hello\",\"metadata\":\x7b\"exit_code\":0,\"duration_seconds\":1.5\x7d"

/-- The payload of claim C3: a complete tool result object followed by
garbage and a trailing open brace. -/
def payloadC3 : List Char :=
  String.toList "\x7b\"output\":\"a\",\"metadata\":\x7b\"exit_code\":0,\"duration_seconds\":0\x7d\x7dTRAILING_GARBAGE\x7b"

/-- The payload of claim C10: a truncated object with a single
irrelevant field. -/
def payloadC10 : List Char := String.toList "\x7b\"a\":1"

/-- The payload of claim C6: a value that parses but lacks both
required fields. -/
def payloadC6 : List Char := String.toList "\x7b\"a\":1\x7d"

/-- The payload of claim C7: an empty command array and a negative
fractional-free timeout. -/
def payloadC7 : List Char := String.toList "\x7b\"cmd\":[],\"timeout\":-1\x7d"

/-- Depth scan bounded by a position budget, following the spec
sentence for stage 3: the count must return to zero at or before the
last close delimiter. -/
def hasMatchingCloseIn : List Char → Nat → Nat → Bool
  | _, _, 0 => false
  | [], _, _ => false
  | c :: cs, count, b + 1 =>
    let count2 := if c = obrace then count + 1 else if c = cbrace then count - 1 else count
    if count2 = 0 then true else hasMatchingCloseIn cs count2 b

/-- The start condition exactly as the spec words it, for comparison
with the condition the source implements: an open delimiter whose
nesting count returns to zero at or before the last close
delimiter. -/
def specStartCond (raw : List Char) (i lastClose : Nat) : Bool :=
  decide (raw[i]? = some obrace) && hasMatchingCloseIn (raw.drop (i + 1)) 1 (lastClose - i)

/-- The candidate start exactly as the spec words it, for comparison:
the earliest index satisfying the condition. -/
def specEarliestStart (raw : List Char) (lastOpen lastClose : Nat) : Option Nat :=
  (List.range (lastOpen + 1)).find? (fun i => specStartCond raw i lastClose)

/-- The payload of claim C5: two complete adjacent objects, so that the
earliest and the latest matched open delimiter differ. -/
def payloadC5 : List Char := String.toList "\x7b\"x\":0\x7d\x7b\"y\":1\x7d"

/-- Ten to the number of digits the emission loop produces, with the
same fuel discipline as the loop. -/
def tenPowAux : Nat → Nat → Nat
  | 0, _ => 1
  | fuel + 1, n => if n = 0 then 1 else 10 * tenPowAux fuel (n / 10)

/-- A list is an admissible continuation after a JSON number: empty, or
starting with something that is neither a digit nor a fraction nor an
exponent marker. -/
def numStop : List Char → Prop
  | [] => True
  | c :: _ => isDigit c = false ∧ c ≠ '.' ∧ c ≠ 'e' ∧ c ≠ 'E'

/-- The metadata object of a well-formed tool result, as a JSON
value. -/
def trMeta (ec : ℤ) (dur : Dec) : JsValue :=
  JsValue.obj [(exitCodeKey, JsValue.num ⟨ec, 0⟩), (durationSecondsKey, JsValue.num dur)]

/-- A well-formed tool result as a JSON value: a text output and the
metadata object. -/
def trValue (out : List Char) (ec : ℤ) (dur : Dec) : JsValue :=
  JsValue.obj [(outputKey, JsValue.str out), (metadataKey, trMeta ec dur)]

/-- Stage 1 short-circuits the whole decoder: whenever the raw text
parses to a non-null value, the decoder returns its output and
metadata properties unmodified. -/
theorem stage1_shortCircuit (raw : List Char) (v : JsValue) (hp : jsonParse raw = some v)
    (hn : isNullV v = false) :
    parseToolCallOutput raw = ⟨getField v outputKey, getField v metadataKey⟩ := by
  have h1 : stage1 raw = some ⟨getField v outputKey, getField v metadataKey⟩ := by
    simp [stage1, hp, hn]
  unfold parseToolCallOutput
  rw [h1]

/-- When stage 1 and the recovery chain both fail, the decoder returns
the fallback value. -/
theorem decode_exhausted (raw : List Char) (h1 : stage1 raw = none)
    (h2 : recoveryStages raw = none) : parseToolCallOutput raw = fallbackResult raw := by
  unfold parseToolCallOutput
  rw [h1, h2]

/-- The truncation guess as a proposition. -/
theorem possibleTruncation_iff (raw : List Char) :
    possibleTruncation raw = true ↔ raw ≠ [] ∧ raw.getLast? ≠ some cbrace ∧ obrace ∈ raw := by
  simp [possibleTruncation, and_assoc]

/-- C1: for every input the decoder is a total function into decode
results (totality holds by construction in this embedding, matching
the try/catch boundary of the source), and on every failure path, that
is whenever stage 1 and the whole recovery chain yield nothing, the
returned value carries metadata whose exit_code is the integer one. -/
theorem c1_decoder_total_fallback_exit_code (raw : List Char) (h1 : stage1 raw = none)
    (h2 : recoveryStages raw = none) :
    ∃ md, (parseToolCallOutput raw).metadata = some md ∧
      getField md exitCodeKey = some (JsValue.num ⟨1, 0⟩) ∧
      getField md durationSecondsKey = some (JsValue.num ⟨0, 0⟩) := by
  rw [decode_exhausted raw h1 h2]
  exact ⟨_, rfl, rfl, rfl⟩

/-- C1 witness: the empty input exhausts every stage and receives the
fallback metadata. -/
theorem c1_witness :
    stage1 [] = none ∧ recoveryStages [] = none ∧
      (∃ md, (parseToolCallOutput []).metadata = some md ∧
        getField md exitCodeKey = some (JsValue.num ⟨1, 0⟩) ∧
        getField md durationSecondsKey = some (JsValue.num ⟨0, 0⟩)) :=
  ⟨rfl, rfl, c1_decoder_total_fallback_exit_code [] rfl rfl⟩

/-- C4: when every recovery stage is exhausted the decoder returns the
fallback value, whose metadata is exit code one with zero duration
unconditionally, and whose output is the truncation literal exactly
when the raw input is non-empty, does not end with a close brace and
contains an open brace, and the generic literal otherwise. -/
theorem c4_fallback_characterization (raw : List Char) (h1 : stage1 raw = none)
    (h2 : recoveryStages raw = none) :
    parseToolCallOutput raw = fallbackResult raw ∧
    (parseToolCallOutput raw).metadata =
      some (JsValue.obj [(exitCodeKey, JsValue.num ⟨1, 0⟩),
                         (durationSecondsKey, JsValue.num ⟨0, 0⟩)]) ∧
    ((parseToolCallOutput raw).output = some (JsValue.str truncMsg) ↔
      raw ≠ [] ∧ raw.getLast? ≠ some cbrace ∧ obrace ∈ raw) ∧
    ((parseToolCallOutput raw).output = some (JsValue.str truncMsg) ∨
      (parseToolCallOutput raw).output = some (JsValue.str genericMsg)) := by
  have he := decode_exhausted raw h1 h2
  rw [he]
  have hne : ¬(genericMsg = truncMsg) := by decide
  refine ⟨rfl, rfl, ?_, ?_⟩
  · constructor
    · intro h
      by_contra hcond
      have hf : possibleTruncation raw = false := by
        rcases Bool.eq_false_or_eq_true (possibleTruncation raw) with h0 | h0
        · exact absurd ((possibleTruncation_iff raw).mp h0) hcond
        · exact h0
      have hg : (fallbackResult raw).output = some (JsValue.str genericMsg) := by
        simp [fallbackResult, hf]
      rw [hg] at h
      injection h with h4
      injection h4 with h5
      exact hne h5
    · intro hcond
      have ht := (possibleTruncation_iff raw).mpr hcond
      simp [fallbackResult, ht]
  · rcases Bool.eq_false_or_eq_true (possibleTruncation raw) with h0 | h0
    · left
      simp [fallbackResult, h0]
    · right
      simp [fallbackResult, h0]

/-- C4 witness: the empty input has no delimiters and receives the
generic literal. -/
theorem c4_witness :
    stage1 [] = none ∧ recoveryStages [] = none ∧
      (parseToolCallOutput []).output = some (JsValue.str genericMsg) := by
  refine ⟨rfl, rfl, ?_⟩
  rcases (c4_fallback_characterization [] rfl rfl).2.2.2 with h | h
  · have := (c4_fallback_characterization [] rfl rfl).2.2.1.mp h
    exact absurd this.1 (by simp)
  · exact h


/-- C2 counterexample: on the payload of the claim the decoder does not
return the stage 2 result the claim describes; it returns the generic
parse-failure literal with the fallback metadata.  Stage 2 cannot fire
because the payload ends with the close brace of its inner metadata
object, so the last close brace lies after the last open brace. -/
theorem c2_counterexample :
    parseToolCallOutput payloadC2 =
      ⟨some (JsValue.str genericMsg),
       some (JsValue.obj [(exitCodeKey, JsValue.num ⟨1, 0⟩),
                          (durationSecondsKey, JsValue.num ⟨0, 0⟩)])⟩ ∧
    (parseToolCallOutput payloadC2).output ≠
      some (JsValue.str
        (String.toList "hello\n[Note: Response was truncated and automatically fixed]")) := by
  refine ⟨rfl, ?_⟩
  intro h
  have h2 : genericMsg =
      String.toList "hello\n[Note: Response was truncated and automatically fixed]" := by
    have h3 : some (JsValue.str genericMsg) =
        some (JsValue.str
          (String.toList "hello\n[Note: Response was truncated and automatically fixed]")) := h
    injection h3 with h4
    injection h4
  exact absurd h2 (by decide)

/-- C2 amended: on the payload of the claim the last open brace (index
29) precedes the last close brace (index 66), so stage 2 is not
triggered; the stage 3 candidate lacks the required keys, every stage
is exhausted, and since the payload ends with a close brace the
decoder returns the generic parse-failure literal with metadata exit
code one and zero duration. -/
theorem c2_amended :
    lastIndexOfChar payloadC2 obrace = some 29 ∧
    lastIndexOfChar payloadC2 cbrace = some 66 ∧
    stage1 payloadC2 = none ∧
    recoveryStages payloadC2 = none ∧
    parseToolCallOutput payloadC2 =
      ⟨some (JsValue.str genericMsg),
       some (JsValue.obj [(exitCodeKey, JsValue.num ⟨1, 0⟩),
                          (durationSecondsKey, JsValue.num ⟨0, 0⟩)])⟩ :=
  ⟨rfl, rfl, rfl, rfl, rfl⟩


/-- C3 counterexample: on the payload of the claim the decoder does not
return the stage 3 result the claim describes; it returns the
truncation literal with the fallback metadata.  Stage 3 cannot fire
because the payload ends with an open brace, so the last close brace
precedes the last open brace and only stage 2 is attempted, which
fails. -/
theorem c3_counterexample :
    parseToolCallOutput payloadC3 =
      ⟨some (JsValue.str truncMsg),
       some (JsValue.obj [(exitCodeKey, JsValue.num ⟨1, 0⟩),
                          (durationSecondsKey, JsValue.num ⟨0, 0⟩)])⟩ ∧
    (parseToolCallOutput payloadC3).output ≠
      some (JsValue.str
        (String.toList "a\n[Note: Response was truncated but a valid portion was recovered]")) := by
  refine ⟨rfl, ?_⟩
  intro h
  have h2 : truncMsg =
      String.toList "a\n[Note: Response was truncated but a valid portion was recovered]" := by
    have h3 : some (JsValue.str truncMsg) =
        some (JsValue.str
          (String.toList "a\n[Note: Response was truncated but a valid portion was recovered]")) := h
    injection h3 with h4
    injection h4
  exact absurd h2 (by decide)

/-- C3 amended: on the payload of the claim the last close brace (index
61) precedes the last open brace (index 78), so stage 3 is never
triggered; stage 2 fires instead and fails because appending a close
brace leaves trailing garbage, every stage is exhausted, and since the
payload does not end with a close brace the decoder returns the
truncation literal with metadata exit code one and zero duration. -/
theorem c3_amended :
    lastIndexOfChar payloadC3 obrace = some 78 ∧
    lastIndexOfChar payloadC3 cbrace = some 61 ∧
    stage1 payloadC3 = none ∧
    stage2 payloadC3 = none ∧
    recoveryStages payloadC3 = none ∧
    parseToolCallOutput payloadC3 =
      ⟨some (JsValue.str truncMsg),
       some (JsValue.obj [(exitCodeKey, JsValue.num ⟨1, 0⟩),
                          (durationSecondsKey, JsValue.num ⟨0, 0⟩)])⟩ :=
  ⟨rfl, rfl, rfl, rfl, rfl, rfl⟩


/-- C10: stage 2 performs no shape check: the payload parses after the
close-brace patch into an object lacking both required fields, yet
stage 2 returns, concatenating the undefined output property into the
string undefined followed by the annotation, with undefined metadata,
instead of falling through to later stages. -/
theorem c10_stage2_no_shape_check :
    stage1 payloadC10 = none ∧
    stage2 payloadC10 =
      some ⟨some (JsValue.str
              (String.toList "undefined\n[Note: Response was truncated and automatically fixed]")),
            none⟩ ∧
    parseToolCallOutput payloadC10 =
      ⟨some (JsValue.str
          (String.toList "undefined\n[Note: Response was truncated and automatically fixed]")),
       none⟩ :=
  ⟨rfl, rfl, rfl⟩


/-- C6 counterexample: a payload that parses to an object lacking the
required output field still succeeds at stage 1, returning undefined
output and undefined metadata, contradicting the claim that stage 1
does not succeed on inputs lacking a required field. -/
theorem c6_counterexample :
    jsonParse payloadC6 = some (JsValue.obj [(['a'], JsValue.num ⟨1, 0⟩)]) ∧
    hasField (JsValue.obj [(['a'], JsValue.num ⟨1, 0⟩)]) outputKey = false ∧
    stage1 payloadC6 = some ⟨none, none⟩ ∧
    parseToolCallOutput payloadC6 = ⟨none, none⟩ :=
  ⟨rfl, rfl, rfl, rfl⟩

/-- C6 amended: stage 1 succeeds exactly on inputs that parse to a
non-null value, with no field requirement; it returns the output and
metadata properties of the parsed value unmodified and unannotated,
each being undefined when absent. -/
theorem c6_amended (raw : List Char) (v : JsValue) (hp : jsonParse raw = some v)
    (hn : isNullV v = false) :
    parseToolCallOutput raw = ⟨getField v outputKey, getField v metadataKey⟩ :=
  stage1_shortCircuit raw v hp hn

/-- C6 witness: the amended statement applied to the counterexample
payload, whose parse lacks both fields yet succeeds at stage 1. -/
theorem c6_amended_witness :
    jsonParse payloadC6 = some (JsValue.obj [(['a'], JsValue.num ⟨1, 0⟩)]) ∧
    parseToolCallOutput payloadC6 = ⟨none, none⟩ :=
  ⟨rfl, c6_amended payloadC6 (JsValue.obj [(['a'], JsValue.num ⟨1, 0⟩)]) rfl rfl⟩


/-- C7 counterexample: the argument decoder accepts an empty command
array and a negative timeout, contradicting both the non-emptiness and
the non-negative-integer parts of the claim. -/
theorem c7_counterexample :
    parseToolCallArguments payloadC7 = some ⟨[], none, some ⟨-1, 0⟩⟩ ∧
    (Dec.m ⟨-1, 0⟩ < 0) :=
  ⟨rfl, by decide⟩

/-- A failed candidate parse makes stage 3 fail. -/
theorem stage3_of_parse_none (raw : List Char) (lo lc : Nat)
    (h : jsonParse (stage3Candidate raw lo lc) = none) : stage3 raw lo lc = none := by
  unfold stage3
  rw [h]

/-- The instrumented decoder computes exactly the decode result of the
plain decoder, whatever the diagnostic switch: logging never affects
the outcome. -/
theorem decodeWithLog_fst (env : DebugEnv) (raw : List Char) :
    (decodeWithLog env raw).1 = parseToolCallOutput raw := by
  unfold decodeWithLog parseToolCallOutput recoveryStages
  cases h1 : stage1 raw with
  | some r => rfl
  | none =>
    by_cases hlen : raw.length = 0
    · simp [hlen]
    · cases h2 : lastIndexOfChar raw obrace with
      | none => simp [hlen, h2]
      | some lo =>
        cases h3 : lastIndexOfChar raw cbrace with
        | none =>
          cases h4 : stage2 raw with
          | some r => simp [hlen, h2, h3, h4]
          | none => simp [hlen, h2, h3, h4]
        | some lc =>
          by_cases h5 : lc < lo
          · cases h4 : stage2 raw with
            | some r => simp [hlen, h2, h3, h5, h4]
            | none => simp [hlen, h2, h3, h5, h4]
          · by_cases h6 : lo < lc
            · cases h7 : jsonParse (stage3Candidate raw lo lc) with
              | none =>
                have h8 := stage3_of_parse_none raw lo lc h7
                simp [hlen, h2, h3, h5, h6, h7, h8]
              | some v =>
                cases h8 : stage3 raw lo lc with
                | some r => simp [hlen, h2, h3, h5, h6, h7, h8]
                | none => simp [hlen, h2, h3, h5, h6, h7, h8]
            · simp [hlen, h2, h3, h5, h6]

/-- C9 counterexample: with the diagnostic switch disabled, decoding
the empty input still attempts one persisted diagnostic artifact, the
error log file written unconditionally on the fallback path, so it is
not true that no diagnostic artifact of any kind is written by a
decode call. -/
theorem c9_counterexample :
    (decodeWithLog ⟨false⟩ []).2 = [Artifact.errorLogFile] ∧
    (decodeWithLog ⟨false⟩ []).2 ≠ [] :=
  ⟨rfl, by decide⟩

/-- C9 amended: with the diagnostic switch disabled every Diagnostic
Recorder entry point returns without writing anything, and the
diagnostic machinery never affects decode outcomes; however the
decoder itself still writes its error log artifact on the fallback
path, outside the three entry points, whatever the switch. -/
theorem c9_amended (env : DebugEnv) (h : env.debug = false) :
    (∀ cmd out ec dur, logCommandExecution env cmd out ec dur = []) ∧
    (∀ js s, logJsonParseAttempt env js s = []) ∧
    (∀ f a o, analyzeToolCallOutput env f a o = []) ∧
    (∀ raw, (decodeWithLog env raw).1 = parseToolCallOutput raw) := by
  refine ⟨fun cmd out ec dur => ?_, fun js s => ?_, fun f a o => ?_,
    fun raw => decodeWithLog_fst env raw⟩ <;>
    simp [logCommandExecution, logJsonParseAttempt, analyzeToolCallOutput, h]

/-- C9 witness: the amended statement applied at the disabled switch
and the empty input. -/
theorem c9_witness :
    logJsonParseAttempt ⟨false⟩ [] true = [] ∧
    logCommandExecution ⟨false⟩ [] [] 0 ⟨0, 0⟩ = [] ∧
    analyzeToolCallOutput ⟨false⟩ [] [] [] = [] ∧
    (decodeWithLog ⟨false⟩ []).1 = parseToolCallOutput [] := by
  have h := c9_amended ⟨false⟩ rfl
  exact ⟨h.2.1 [] true, h.1 [] [] 0 ⟨0, 0⟩, h.2.2.1 [] [] [], h.2.2.2 []⟩

/-- C7 amended: whenever the argument decoder yields a descriptor, the
input parsed to a non-null value of object type, the command list is
the string array extracted from the cmd key, or else from the command
key when the cmd key holds no string array; the list may be empty, and
the timeout, when present, is exactly the number found at the timeout
key, with no sign or integrality check. -/
theorem c7_amended (raw : List Char) (d : ExecInput)
    (h : parseToolCallArguments raw = some d) :
    ∃ v, jsonParse raw = some v ∧ isJsObjectType v = true ∧ isNullV v = false ∧
      (toStringArray (getField v cmdKey) = some d.cmd ∨
        (toStringArray (getField v cmdKey) = none ∧
         toStringArray (getField v commandKey) = some d.cmd)) ∧
      ∀ t, d.timeoutInMillis = some t → getField v timeoutKey = some (JsValue.num t) := by
  unfold parseToolCallArguments at h
  cases hp : jsonParse raw with
  | none =>
    rw [hp] at h
    cases h
  | some v =>
    rw [hp] at h
    by_cases ho : isJsObjectType v = true
    case neg =>
      have hof : isJsObjectType v = false := by simpa using ho
      simp [hof] at h
    case pos =>
      by_cases hn : isNullV v = true
      case pos => simp [ho, hn] at h
      case neg =>
        have hnf : isNullV v = false := by simpa using hn
        simp only [ho, hnf, Bool.not_true, Bool.not_false, if_false, if_true] at h
        refine ⟨v, rfl, ho, hnf, ?_⟩
        cases hc : toStringArray (getField v cmdKey) with
        | some a =>
          rw [hc] at h
          simp only [] at h
          injection h with h2
          refine ⟨Or.inl (by rw [← h2]), ?_⟩
          intro t ht
          rw [← h2] at ht
          revert ht
          cases hg : getField v timeoutKey with
          | none => intro ht; cases ht
          | some w =>
            cases w with
            | num q =>
              intro ht
              injection ht with h3
              rw [h3]
            | null => intro ht; cases ht
            | bool b => intro ht; cases ht
            | str s => intro ht; cases ht
            | arr es => intro ht; cases ht
            | obj fs => intro ht; cases ht
        | none =>
          rw [hc] at h
          cases hcc : toStringArray (getField v commandKey) with
          | none =>
            rw [hcc] at h
            cases h
          | some a =>
            rw [hcc] at h
            simp only [] at h
            injection h with h2
            refine ⟨Or.inr ⟨rfl, by rw [← h2]⟩, ?_⟩
            intro t ht
            rw [← h2] at ht
            revert ht
            cases hg : getField v timeoutKey with
            | none => intro ht; cases ht
            | some w =>
              cases w with
              | num q =>
                intro ht
                injection ht with h3
                rw [h3]
              | null => intro ht; cases ht
              | bool b => intro ht; cases ht
              | str s => intro ht; cases ht
              | arr es => intro ht; cases ht
              | obj fs => intro ht; cases ht

/-- C7 witness: the amended statement applied to the counterexample
payload, whose descriptor has an empty command list and a negative
timeout. -/
theorem c7_amended_witness :
    parseToolCallArguments payloadC7 = some ⟨[], none, some ⟨-1, 0⟩⟩ ∧
    ∃ v, jsonParse payloadC7 = some v ∧ isJsObjectType v = true ∧ isNullV v = false ∧
      (toStringArray (getField v cmdKey) = some [] ∨
        (toStringArray (getField v cmdKey) = none ∧
         toStringArray (getField v commandKey) = some [])) ∧
      ∀ t, (some (⟨-1, 0⟩ : Dec) : Option Dec) = some t →
        getField v timeoutKey = some (JsValue.num t) :=
  ⟨rfl, c7_amended payloadC7 ⟨[], none, some ⟨-1, 0⟩⟩ rfl⟩





/-- C5 counterexample: on a payload that triggers stage 3 the earliest
open delimiter whose depth count returns to zero at or before the last
close delimiter is index 0, but the scan of the source records index
7, and the candidate substring is the second object alone rather than
the substring from index 0; the claim fails because the loop
overwrites its start variable on every later match. -/
theorem c5_counterexample :
    stage1 payloadC5 = none ∧
    lastIndexOfChar payloadC5 obrace = some 7 ∧
    lastIndexOfChar payloadC5 cbrace = some 13 ∧
    specEarliestStart payloadC5 7 13 = some 0 ∧
    findStart payloadC5 7 = 7 ∧
    stage3Candidate payloadC5 7 13 = String.toList "\x7b\"y\":1\x7d" ∧
    stage3Candidate payloadC5 7 13 ≠ (payloadC5.drop 0).take 14 :=
  ⟨rfl, rfl, rfl, rfl, rfl, rfl, by decide⟩

/-- One unfolding step of the scan: extending the loop bound by one
position overwrites the start exactly when the new position
matches. -/
theorem findStart_succ (raw : List Char) (n : Nat) :
    findStart raw (n + 1) =
      if startCond raw (n + 1) then n + 1 else findStart raw n := by
  unfold findStart
  rw [List.range_succ, List.foldl_append]
  rfl

/-- The scan of the source selects the greatest matching position at or
below its limit, or zero when no position matches. -/
theorem findStart_greatest (raw : List Char) (limit : Nat) :
    (startCond raw (findStart raw limit) = true ∧ findStart raw limit ≤ limit ∧
      ∀ j, startCond raw j = true → j ≤ limit → j ≤ findStart raw limit) ∨
    (findStart raw limit = 0 ∧ ∀ j, j ≤ limit → startCond raw j = false) := by
  induction limit with
  | zero =>
    have h0 : findStart raw 0 = 0 := by
      unfold findStart
      rw [show List.range 1 = [0] from rfl]
      simp only [List.foldl_cons, List.foldl_nil]
      split <;> rfl
    rcases Bool.eq_false_or_eq_true (startCond raw 0) with hc | hc
    · left
      rw [h0]
      exact ⟨hc, le_refl 0, fun j _ hj => hj⟩
    · right
      refine ⟨h0, fun j hj => ?_⟩
      have hj0 : j = 0 := Nat.le_zero.mp hj
      rw [hj0]
      exact hc
  | succ n ih =>
    rcases Bool.eq_false_or_eq_true (startCond raw (n + 1)) with hc | hc
    · have hs : findStart raw (n + 1) = n + 1 := by
        simp [findStart_succ, hc]
      left
      rw [hs]
      exact ⟨hc, le_refl _, fun j _ hjle => hjle⟩
    · have hs : findStart raw (n + 1) = findStart raw n := by
        simp [findStart_succ, hc]
      rcases ih with ⟨hgood, hle, hmax⟩ | ⟨h0, hnone⟩
      · left
        rw [hs]
        refine ⟨hgood, Nat.le_succ_of_le hle, fun j hj hjle => ?_⟩
        have hcase : j ≤ n ∨ j = n + 1 := by omega
        rcases hcase with h | h
        · exact hmax j hj h
        · rw [h] at hj
          rw [hj] at hc
          cases hc
      · right
        rw [hs]
        refine ⟨h0, fun j hjle => ?_⟩
        have hcase : j ≤ n ∨ j = n + 1 := by omega
        rcases hcase with h | h
        · exact hnone j h
        · rw [h]
          exact hc

/-- C5 amended: the stage 3 candidate extends from the recorded start
through the last close delimiter inclusive, and the recorded start is
the latest (not the earliest) position at or below the last open
delimiter holding an open delimiter whose depth count returns to zero,
or zero when no position qualifies. -/
theorem c5_amended (raw : List Char) (lo lc : Nat) :
    stage3Candidate raw lo lc =
      (raw.drop (findStart raw lo)).take (lc + 1 - findStart raw lo) ∧
    ((startCond raw (findStart raw lo) = true ∧ findStart raw lo ≤ lo ∧
        ∀ j, startCond raw j = true → j ≤ lo → j ≤ findStart raw lo) ∨
      (findStart raw lo = 0 ∧ ∀ j, j ≤ lo → startCond raw j = false)) :=
  ⟨rfl, findStart_greatest raw lo⟩

/-- C5 witness: the amended characterization applied to the concrete
payload pins the recorded start to position 7, the latest matching
open delimiter. -/
theorem c5_amended_witness : findStart payloadC5 7 = 7 := by
  rcases (c5_amended payloadC5 7 13).2 with ⟨_, hle, hmax⟩ | ⟨_, hnone⟩
  · have h7 : startCond payloadC5 7 = true := by decide
    have := hmax 7 h7 (le_refl 7)
    omega
  · have h7 : startCond payloadC5 7 = true := by decide
    rw [hnone 7 (le_refl 7)] at h7
    cases h7



/-- Digit characters evaluate back to their digit. -/
theorem digitVal_digitChar : ∀ d, d < 10 → digitVal (digitChar d) = d := by decide

/-- One evaluation step of the accumulating digit evaluation. -/
theorem digitsToNatFrom_cons (a : Nat) (c : Char) (cs : List Char) :
    digitsToNatFrom a (c :: cs) = digitsToNatFrom (a * 10 + digitVal c) cs := rfl

/-- Digit characters satisfy the digit test. -/
theorem isDigit_digitChar : ∀ d, d < 10 → isDigit (digitChar d) = true := by decide

/-- Emitting zero yields the accumulator unchanged at any fuel. -/
theorem natToDigitsAux_zero (fuel : Nat) (acc : List Char) :
    natToDigitsAux fuel 0 acc = acc := by
  cases fuel <;> rfl

/-- Evaluating the emitted digits inserts the number below the running
accumulator value, scaled by the count of emitted digits. -/
theorem natToDigitsAux_eval (fuel : Nat) :
    ∀ n acc s, n < fuel →
      digitsToNatFrom s (natToDigitsAux fuel n acc) =
        digitsToNatFrom (s * tenPowAux fuel n + n) acc := by
  induction fuel with
  | zero => intro n acc s h; exact absurd h (Nat.not_lt_zero n)
  | succ f ih =>
    intro n acc s h
    by_cases hn : n = 0
    · subst hn
      simp [natToDigitsAux, tenPowAux]
    · have hdiv : n / 10 < f := by
        have h1 : n / 10 < n := Nat.div_lt_self (Nat.pos_of_ne_zero hn) (by norm_num)
        omega
      simp only [natToDigitsAux, tenPowAux, hn, if_false]
      refine (ih (n / 10) (digitChar (n % 10) :: acc) s hdiv).trans ?_
      rw [digitsToNatFrom_cons,
        digitVal_digitChar (n % 10) (Nat.mod_lt n (by norm_num))]
      congr 1
      have hmul : s * (10 * tenPowAux f (n / 10)) = s * tenPowAux f (n / 10) * 10 := by ring
      rw [hmul]
      omega

/-- Round trip for the digit emission. -/
theorem digitsToNat_natToDigits (n : Nat) : digitsToNat (natToDigits n) = n := by
  unfold natToDigits
  by_cases hn : n = 0
  · subst hn
    rfl
  · simp only [hn, if_false]
    unfold digitsToNat
    refine (natToDigitsAux_eval (n + 1) n [] 0 (Nat.lt_succ_self n)).trans ?_
    have h0 : digitsToNatFrom (0 * tenPowAux (n + 1) n + n) [] =
        0 * tenPowAux (n + 1) n + n := rfl
    exact h0.trans (by omega)

/-- Every emitted character is a digit. -/
theorem natToDigitsAux_digits (fuel : Nat) :
    ∀ n acc, (∀ c ∈ acc, isDigit c = true) →
      ∀ c ∈ natToDigitsAux fuel n acc, isDigit c = true := by
  induction fuel with
  | zero => intro n acc hacc; exact hacc
  | succ f ih =>
    intro n acc hacc
    by_cases hn : n = 0
    · subst hn
      simpa [natToDigitsAux] using hacc
    · simp only [natToDigitsAux, hn, if_false]
      refine ih (n / 10) _ ?_
      intro c hc
      rcases List.mem_cons.mp hc with h | h
      · rw [h]
        exact isDigit_digitChar _ (Nat.mod_lt n (by norm_num))
      · exact hacc c h

/-- Every character of the digit emission is a digit. -/
theorem natToDigits_digits (n : Nat) : ∀ c ∈ natToDigits n, isDigit c = true := by
  unfold natToDigits
  by_cases hn : n = 0
  · subst hn
    intro c hc
    simp only [if_true, List.mem_singleton] at hc
    rw [hc]
    decide
  · simp only [hn, if_false]
    exact natToDigitsAux_digits (n + 1) n [] (by intro c hc; cases hc)

/-- For a non-zero number the emission starts with a non-zero digit. -/
theorem natToDigitsAux_head (fuel : Nat) :
    ∀ n acc, n ≠ 0 → n < fuel →
      ∃ d t, natToDigitsAux fuel n acc = digitChar d :: t ∧ d < 10 ∧ d ≠ 0 := by
  induction fuel with
  | zero => intro n acc hn h; exact absurd h (Nat.not_lt_zero n)
  | succ f ih =>
    intro n acc hn h
    simp only [natToDigitsAux, hn, if_false]
    by_cases hq : n / 10 = 0
    · rw [hq, natToDigitsAux_zero]
      have hlt : n < 10 := by
        rcases Nat.lt_or_ge n 10 with h10 | h10
        · exact h10
        · exact absurd hq (by
            have : 1 ≤ n / 10 := Nat.le_div_iff_mul_le (by norm_num) |>.mpr (by omega)
            omega)
      refine ⟨n % 10, acc, rfl, Nat.mod_lt n (by norm_num), ?_⟩
      rw [Nat.mod_eq_of_lt hlt]
      exact hn
    · have hdiv : n / 10 < f := by
        have h1 : n / 10 < n := Nat.div_lt_self (Nat.pos_of_ne_zero hn) (by norm_num)
        omega
      exact ih (n / 10) _ hq hdiv

/-- The digit emission is never empty. -/
theorem natToDigits_ne_nil (n : Nat) : natToDigits n ≠ [] := by
  unfold natToDigits
  by_cases hn : n = 0
  · simp [hn]
  · simp only [hn, if_false]
    rcases natToDigitsAux_head (n + 1) n [] hn (Nat.lt_succ_self n) with ⟨d, t, he, _, _⟩
    rw [he]
    exact List.cons_ne_nil _ _

/-- The digit emission never carries a superfluous leading zero. -/
theorem leadingZeroBad_natToDigits (n : Nat) : leadingZeroBad (natToDigits n) = false := by
  by_cases hn : n = 0
  · subst hn
    rfl
  · unfold natToDigits
    simp only [hn, if_false]
    rcases natToDigitsAux_head (n + 1) n [] hn (Nat.lt_succ_self n) with ⟨d, t, he, hd10, hd0⟩
    rw [he]
    cases t with
    | nil => rfl
    | cons x xs =>
      have : ∀ d, d < 10 → d ≠ 0 → (decide (digitChar d = '0')) = false := by decide
      simpa [leadingZeroBad] using this d hd10 hd0

/-- The emission length is bounded by the digit capacity. -/
theorem natToDigitsAux_length (fuel : Nat) :
    ∀ n acc k, n < fuel → n < 10 ^ k →
      (natToDigitsAux fuel n acc).length ≤ k + acc.length := by
  induction fuel with
  | zero => intro n acc k h; exact absurd h (Nat.not_lt_zero n)
  | succ f ih =>
    intro n acc k h hk
    by_cases hn : n = 0
    · subst hn
      rw [natToDigitsAux_zero]
      omega
    · cases k with
      | zero =>
        simp only [pow_zero] at hk
        omega
      | succ j =>
        simp only [natToDigitsAux, hn, if_false]
        have hdiv : n / 10 < f := by
          have h1 : n / 10 < n := Nat.div_lt_self (Nat.pos_of_ne_zero hn) (by norm_num)
          omega
        have hj : n / 10 < 10 ^ j := by
          rw [Nat.div_lt_iff_lt_mul (by norm_num : 0 < 10)]
          calc n < 10 ^ (j + 1) := hk
            _ = 10 ^ j * 10 := by rw [pow_succ]
        have := ih (n / 10) (digitChar (n % 10) :: acc) j hdiv hj
        simp only [List.length_cons] at this
        omega

/-- The digit emission of a number below the capacity of k digits has
at most k digits, provided k is positive. -/
theorem natToDigits_length (n k : Nat) (hk : 0 < k) (h : n < 10 ^ k) :
    (natToDigits n).length ≤ k := by
  unfold natToDigits
  by_cases hn : n = 0
  · simp [hn]
    omega
  · simp only [hn, if_false]
    have := natToDigitsAux_length (n + 1) n [] k (Nat.lt_succ_self n) h
    simpa using this

/-- A digit run is split off exactly when followed by a non-digit or
nothing. -/
theorem takeDigits_append (ds : List Char) :
    ∀ rest, (∀ c ∈ ds, isDigit c = true) →
      (rest = [] ∨ ∃ c t, rest = c :: t ∧ isDigit c = false) →
      takeDigits (ds ++ rest) = (ds, rest) := by
  induction ds with
  | nil =>
    intro rest _ hrest
    rcases hrest with h | ⟨c, t, he, hc⟩
    · rw [h]
      rfl
    · rw [he]
      simp only [List.nil_append]
      unfold takeDigits
      rw [hc]
      rfl
  | cons d ds ih =>
    intro rest hds hrest
    have hd : isDigit d = true := hds d (List.mem_cons_self d ds)
    have htail := ih rest (fun c hc => hds c (List.mem_cons_of_mem d hc)) hrest
    simp only [List.cons_append]
    unfold takeDigits
    rw [hd, htail]
    rfl

/-- Leading zero characters scale the accumulator. -/
theorem digitsToNatFrom_replicate (z : Nat) :
    ∀ s ds, digitsToNatFrom s (List.replicate z '0' ++ ds) =
      digitsToNatFrom (s * 10 ^ z) ds := by
  induction z with
  | zero =>
    intro s ds
    simp
  | succ j ih =>
    intro s ds
    simp only [List.replicate_succ, List.cons_append]
    rw [digitsToNatFrom_cons]
    have hdv : digitVal '0' = 0 := rfl
    rw [hdv]
    refine (ih (s * 10 + 0) ds).trans ?_
    congr 1
    ring

/-- Padding does not change the evaluated number. -/
theorem digitsToNat_padLeftZeros (k : Nat) (ds : List Char) :
    digitsToNat (padLeftZeros k ds) = digitsToNat ds := by
  unfold digitsToNat padLeftZeros
  refine (digitsToNatFrom_replicate _ 0 ds).trans ?_
  norm_num

/-- Padding to at least the current length yields exactly the target
length. -/
theorem padLeftZeros_length (k : Nat) (ds : List Char) (h : ds.length ≤ k) :
    (padLeftZeros k ds).length = k := by
  simp [padLeftZeros]
  omega

/-- Padding a digit run with zeros yields a digit run. -/
theorem padLeftZeros_digits (k : Nat) (ds : List Char)
    (h : ∀ c ∈ ds, isDigit c = true) : ∀ c ∈ padLeftZeros k ds, isDigit c = true := by
  intro c hc
  unfold padLeftZeros at hc
  rcases List.mem_append.mp hc with h1 | h1
  · rw [List.eq_of_mem_replicate h1]
    decide
  · exact h c h1

/-- A numStop continuation is in particular a non-digit
continuation. -/
theorem numStop_nonDigit (rest : List Char) (h : numStop rest) :
    rest = [] ∨ ∃ c t, rest = c :: t ∧ isDigit c = false := by
  cases rest with
  | nil => exact Or.inl rfl
  | cons c t => exact Or.inr ⟨c, t, rfl, h.1⟩

/-- Building a canonical decimal at scale zero. -/
theorem mkDec_int (m : ℤ) : mkDec m 0 = ⟨m, 0⟩ := by
  unfold mkDec
  norm_num

/-- Building a canonical decimal at a positive scale from a mantissa
that is no multiple of ten. -/
theorem mkDec_neg_exp (m : ℤ) (e : Nat) (he : 0 < e) (hm : m % 10 ≠ 0) :
    mkDec m (0 - (e : ℤ)) = ⟨m, e⟩ := by
  unfold mkDec
  have h1 : ¬(0 ≤ (0 : ℤ) - e) := by omega
  rw [if_neg h1]
  have h2 : (-((0 : ℤ) - e)).toNat = e := by omega
  rw [h2]
  cases e with
  | zero => omega
  | succ f =>
    unfold normDec stripDec
    rw [if_neg (Nat.succ_ne_zero f), if_neg hm]

/-- The integer and fractional digit values recombine to the
number. -/
theorem mantissa_eq (a e : Nat) :
    ((a / 10 ^ e : ℕ) : ℤ) * 10 ^ e + ((a % 10 ^ e : ℕ) : ℤ) = (a : ℤ) := by
  have hP : a / 10 ^ e * 10 ^ e + a % 10 ^ e = a := Nat.div_add_mod' a (10 ^ e)
  exact_mod_cast hP

/-- The number parser after the sign inverts the plain decimal
notation of a natural mantissa at a canonical scale, leaving an
admissible continuation untouched. -/
theorem parseNumAfterSign_inv (a e : Nat) (hnorm : e = 0 ∨ a % 10 ≠ 0)
    (rest : List Char) (hrest : numStop rest) :
    parseNumAfterSign (natToDigits (a / 10 ^ e) ++
        (if e = 0 then [] else '.' :: padLeftZeros e (natToDigits (a % 10 ^ e))) ++ rest) =
      some (⟨(a : ℤ), e⟩, rest) := by
  cases e with
  | zero =>
    have hshape : (natToDigits (a / 10 ^ 0) ++
        (if 0 = 0 then [] else '.' :: padLeftZeros 0 (natToDigits (a % 10 ^ 0)))) ++ rest =
        natToDigits a ++ rest := by
      norm_num
    rw [hshape]
    have h1 : takeDigits (natToDigits a ++ rest) = (natToDigits a, rest) :=
      takeDigits_append _ rest (natToDigits_digits a) (numStop_nonDigit rest hrest)
    unfold parseNumAfterSign
    rw [h1]
    simp only [natToDigits_ne_nil a, leadingZeroBad_natToDigits a, Bool.false_eq_true,
      if_false, digitsToNat_natToDigits, if_true]
    cases rest with
    | nil =>
      simp only [Option.some.injEq, Prod.mk.injEq]
      refine ⟨?_, by trivial⟩
      rw [show ((a : ℤ) * 10 ^ (0 : ℕ) + ((0 : ℕ) : ℤ)) = (a : ℤ) by norm_num,
        show ((0 : ℤ) - ((0 : ℕ) : ℤ)) = 0 by norm_num]
      exact mkDec_int a
    | cons c t =>
      obtain ⟨hcd, hcdot, hce, hcE⟩ := hrest
      simp only []
      rw [if_neg hcdot]
      simp only []
      have hor : ¬(c = 'e' ∨ c = 'E') := by
        intro h
        rcases h with h | h
        · exact hce h
        · exact hcE h
      rw [if_neg hor]
      simp only [Option.some.injEq, Prod.mk.injEq]
      refine ⟨?_, by trivial⟩
      rw [show ((a : ℤ) * 10 ^ (0 : ℕ) + ((0 : ℕ) : ℤ)) = (a : ℤ) by norm_num,
        show ((0 : ℤ) - ((0 : ℕ) : ℤ)) = 0 by norm_num]
      exact mkDec_int a
  | succ j =>
    have hnz : a % 10 ≠ 0 := by
      rcases hnorm with h | h
      · exact absurd h (Nat.succ_ne_zero j)
      · exact h
    have hppos : 0 < 10 ^ (j + 1) := Nat.pos_pow_of_pos _ (by norm_num)
    have hmodlt : a % 10 ^ (j + 1) < 10 ^ (j + 1) := Nat.mod_lt a hppos
    have hdlen : (natToDigits (a % 10 ^ (j + 1))).length ≤ j + 1 :=
      natToDigits_length _ _ (Nat.succ_pos j) hmodlt
    have hlen : (padLeftZeros (j + 1) (natToDigits (a % 10 ^ (j + 1)))).length = j + 1 :=
      padLeftZeros_length _ _ hdlen
    simp only [if_neg (Nat.succ_ne_zero j), List.append_assoc, List.cons_append]
    have h1 : takeDigits (natToDigits (a / 10 ^ (j + 1)) ++
        ('.' :: (padLeftZeros (j + 1) (natToDigits (a % 10 ^ (j + 1))) ++ rest))) =
        (natToDigits (a / 10 ^ (j + 1)),
         '.' :: (padLeftZeros (j + 1) (natToDigits (a % 10 ^ (j + 1))) ++ rest)) :=
      takeDigits_append _ _ (natToDigits_digits _)
        (Or.inr ⟨'.', _, rfl, by decide⟩)
    have h2 : takeDigits (padLeftZeros (j + 1) (natToDigits (a % 10 ^ (j + 1))) ++ rest) =
        (padLeftZeros (j + 1) (natToDigits (a % 10 ^ (j + 1))), rest) :=
      takeDigits_append _ _ (padLeftZeros_digits _ _ (natToDigits_digits _))
        (numStop_nonDigit rest hrest)
    have hpadne : padLeftZeros (j + 1) (natToDigits (a % 10 ^ (j + 1))) ≠ [] := by
      intro hnil
      rw [hnil] at hlen
      simp at hlen
    unfold parseNumAfterSign
    rw [h1]
    simp only [natToDigits_ne_nil _, leadingZeroBad_natToDigits _, Bool.false_eq_true,
      if_false, if_true, digitsToNat_natToDigits]
    rw [h2]
    simp only [hpadne, if_false, if_true, hlen, digitsToNat_padLeftZeros,
      digitsToNat_natToDigits]
    cases rest with
    | nil =>
      simp only [Option.some.injEq, Prod.mk.injEq]
      refine ⟨?_, by trivial⟩
      rw [mantissa_eq a (j + 1)]
      exact mkDec_neg_exp _ _ (Nat.succ_pos j) (fun hc => hnz (by omega))
    | cons c t =>
      obtain ⟨hcd, hcdot, hce, hcE⟩ := hrest
      simp only []
      have hor : ¬(c = 'e' ∨ c = 'E') := by
        intro h
        rcases h with h | h
        · exact hce h
        · exact hcE h
      rw [if_neg hor]
      simp only [Option.some.injEq, Prod.mk.injEq]
      refine ⟨?_, by trivial⟩
      rw [mantissa_eq a (j + 1)]
      exact mkDec_neg_exp _ _ (Nat.succ_pos j) (fun hc => hnz (by omega))

/-- Right-associated form of the decimal inversion. -/
theorem parseNumAfterSign_inv2 (a e : Nat) (hnorm : e = 0 ∨ a % 10 ≠ 0)
    (rest : List Char) (hrest : numStop rest) :
    parseNumAfterSign (natToDigits (a / 10 ^ e) ++
        ((if e = 0 then [] else '.' :: padLeftZeros e (natToDigits (a % 10 ^ e))) ++ rest)) =
      some (⟨(a : ℤ), e⟩, rest) := by
  rw [← List.append_assoc]
  exact parseNumAfterSign_inv a e hnorm rest hrest

/-- The number parser inverts the plain decimal notation of a
canonical scaled decimal, leaving an admissible continuation
untouched. -/
theorem parseNumber_numToChars (d : Dec) (hd : d.IsNormal) (rest : List Char)
    (hrest : numStop rest) :
    parseNumber (numToChars d ++ rest) = some (d, rest) := by
  obtain ⟨m, e⟩ := d
  have hnorm : e = 0 ∨ m.natAbs % 10 ≠ 0 := by
    rcases hd with h | h
    · exact Or.inl h
    · right
      intro hc
      apply h
      simp only at *
      omega
  have hshape : numToChars ⟨m, e⟩ ++ rest = (if m < 0 then ['-'] else []) ++
      (natToDigits (m.natAbs / 10 ^ e) ++
        ((if e = 0 then [] else '.' :: padLeftZeros e (natToDigits (m.natAbs % 10 ^ e))) ++
          rest)) := by
    unfold numToChars
    simp [List.append_assoc]
  rw [hshape]
  by_cases hm : m < 0
  · simp only [hm, if_true, List.cons_append, List.nil_append]
    unfold parseNumber
    simp only [if_true]
    rw [parseNumAfterSign_inv2 m.natAbs e hnorm rest hrest]
    simp only [Option.map_some', Option.some.injEq, Prod.mk.injEq]
    refine ⟨?_, by trivial⟩
    unfold negDec
    have hmm : -((m.natAbs : ℤ)) = m := by omega
    simp only []
    rw [hmm]
  · simp only [hm, if_false, List.nil_append]
    obtain ⟨c, t, hct⟩ : ∃ c t, natToDigits (m.natAbs / 10 ^ e) = c :: t := by
      cases hnn : natToDigits (m.natAbs / 10 ^ e) with
      | nil => exact absurd hnn (natToDigits_ne_nil _)
      | cons c t => exact ⟨c, t, rfl⟩
    have hcdig : isDigit c = true := by
      have hall := natToDigits_digits (m.natAbs / 10 ^ e)
      rw [hct] at hall
      exact hall c (List.mem_cons_self c t)
    have hcm : c ≠ '-' := by
      intro h
      rw [h] at hcdig
      exact absurd hcdig (by decide)
    rw [hct, List.cons_append]
    unfold parseNumber
    simp only []
    rw [if_neg hcm, ← List.cons_append, ← hct,
      parseNumAfterSign_inv2 m.natAbs e hnorm rest hrest]
    have hmm : ((m.natAbs : ℤ)) = m := by omega
    rw [hmm]

/-- Hexadecimal digit characters evaluate back to their value. -/
theorem hexVal_hexChar : ∀ x, x < 16 → hexVal (hexChar x) = some x := by decide

/-- Escaping emits at least one character per character. -/
theorem escapeChars_length (s : List Char) : s.length ≤ (escapeChars s).length := by
  induction s with
  | nil => simp [escapeChars]
  | cons c cs ih =>
    have h1 : 1 ≤ (escChar c).length := by
      unfold escChar
      split
      · simp
      · split
        · simp
        · split
          · simp
          · simp
    simp only [escapeChars, List.length_append, List.length_cons]
    omega

/-- The string body parser inverts escaping, consuming the closing
quote and leaving the remainder untouched. -/
theorem parseStringBody_escape (s : List Char) :
    ∀ fuel rest, s.length < fuel →
      parseStringBody fuel (escapeChars s ++ '"' :: rest) = some (s, rest) := by
  induction s with
  | nil =>
    intro fuel rest h
    cases fuel with
    | zero => omega
    | succ f => rfl
  | cons c cs ih =>
    intro fuel rest h
    cases fuel with
    | zero => omega
    | succ f =>
      have hlen : cs.length < f := by
        simp only [List.length_cons] at h
        omega
      have ihf := ih f rest hlen
      simp only [escapeChars, List.append_assoc]
      by_cases h1 : c = '"'
      · subst h1
        rw [show escChar '"' = ['\\', '"'] from rfl]
        simp only [List.cons_append, List.nil_append]
        show (parseStringBody f (escapeChars cs ++ '"' :: rest)).map
          (fun p => ('"' :: p.1, p.2)) = some ('"' :: cs, rest)
        rw [ihf]
        rfl
      · by_cases h2 : c = '\\'
        · subst h2
          rw [show escChar '\\' = ['\\', '\\'] from rfl]
          simp only [List.cons_append, List.nil_append]
          show (parseStringBody f (escapeChars cs ++ '"' :: rest)).map
            (fun p => ('\\' :: p.1, p.2)) = some ('\\' :: cs, rest)
          rw [ihf]
          rfl
        · by_cases h3 : c.toNat < 32
          · have he1 : escChar c =
                ['\\', 'u', '0', '0', hexChar (c.toNat / 16), hexChar (c.toNat % 16)] := by
              unfold escChar
              rw [if_neg h1, if_neg h2, if_pos h3]
            rw [he1]
            simp only [List.cons_append, List.nil_append]
            unfold parseStringBody
            simp only [Char.reduceEq, if_true, if_false]
            rw [show hexVal '0' = some 0 from rfl,
              hexVal_hexChar (c.toNat / 16) (by omega),
              hexVal_hexChar (c.toNat % 16) (by omega)]
            simp only []
            have hn : ((0 * 16 + 0) * 16 + c.toNat / 16) * 16 + c.toNat % 16 = c.toNat := by
              omega
            rw [hn]
            rw [if_neg (by omega : ¬(55296 ≤ c.toNat ∧ c.toNat ≤ 57343))]
            rw [Char.ofNat_toNat]
            rw [ihf]
            rfl
          · have he1 : escChar c = [c] := by
              unfold escChar
              rw [if_neg h1, if_neg h2, if_neg h3]
            rw [he1]
            simp only [List.cons_append, List.nil_append]
            unfold parseStringBody
            simp only []
            rw [if_neg h1, if_neg h2, if_neg h3]
            rw [ihf]
            rfl

/-- A string literal gives the parser enough local fuel. -/
theorem escFuel (s R : List Char) : s.length < (escapeChars s ++ '"' :: R).length + 1 := by
  have := escapeChars_length s
  simp only [List.length_append, List.length_cons]
  omega

/-- The string literal shape, right associated. -/
theorem encString_shape (s R : List Char) :
    encString s ++ R = '"' :: (escapeChars s ++ '"' :: R) := by
  simp [encString]

/-- The value parser inverts a string literal. -/
theorem parseValue_encString (f : Nat) (s rest : List Char) :
    parseValue (f + 1) (encString s ++ rest) = some (JsValue.str s, rest) := by
  rw [encString_shape]
  unfold parseValue
  rw [show skipWs ('"' :: (escapeChars s ++ '"' :: rest)) =
    '"' :: (escapeChars s ++ '"' :: rest) from rfl]
  simp only [if_true]
  rw [parseStringBody_escape s _ rest (escFuel s rest)]
  rfl

/-- A digit character is not whitespace. -/
theorem isWs_false_of_isDigit (c : Char) (h : isDigit c = true) : isWs c = false := by
  rcases Bool.eq_false_or_eq_true (isWs c) with hw | hw
  · exfalso
    unfold isWs at hw
    simp only [Bool.or_eq_true, decide_eq_true_eq] at hw
    rcases hw with ((hc | hc) | hc) | hc <;>
      (rw [hc] at h; exact absurd h (by decide))
  · exact hw

/-- A digit character differs from every non-digit character. -/
theorem ne_of_isDigit (c : Char) (h : isDigit c = true) (y : Char)
    (hy : isDigit y = false) : (c = y) = False := by
  refine eq_false ?_
  intro hcy
  rw [hcy] at h
  rw [h] at hy
  cases hy

/-- The value parser inverts a plain decimal number, leaving an
admissible continuation untouched. -/
theorem parseValue_numToChars (f : Nat) (d : Dec) (hd : d.IsNormal) (rest : List Char)
    (hrest : numStop rest) :
    parseValue (f + 1) (numToChars d ++ rest) = some (JsValue.num d, rest) := by
  have hpn := parseNumber_numToChars d hd rest hrest
  obtain ⟨c, t, hct, hcor⟩ : ∃ c t, numToChars d ++ rest = c :: t ∧
      (c = '-' ∨ isDigit c = true) := by
    unfold numToChars
    by_cases hm : d.m < 0
    · refine ⟨'-', (natToDigits (d.m.natAbs / 10 ^ d.e) ++
        (if d.e = 0 then [] else
          '.' :: padLeftZeros d.e (natToDigits (d.m.natAbs % 10 ^ d.e)))) ++ rest,
        ?_, Or.inl rfl⟩
      simp [hm, List.append_assoc]
    · obtain ⟨a, b, hab⟩ : ∃ a b, natToDigits (d.m.natAbs / 10 ^ d.e) = a :: b := by
        cases hnn : natToDigits (d.m.natAbs / 10 ^ d.e) with
        | nil => exact absurd hnn (natToDigits_ne_nil _)
        | cons a b => exact ⟨a, b, rfl⟩
      have hadig : isDigit a = true := by
        have hall := natToDigits_digits (d.m.natAbs / 10 ^ d.e)
        rw [hab] at hall
        exact hall a (List.mem_cons_self a b)
      refine ⟨a, (b ++
        (if d.e = 0 then [] else
          '.' :: padLeftZeros d.e (natToDigits (d.m.natAbs % 10 ^ d.e)))) ++ rest,
        ?_, Or.inr hadig⟩
      rw [hab]
      simp [hm, List.append_assoc]
  have hwsc : isWs c = false := by
    rcases hcor with hc | hc
    · rw [hc]
      rfl
    · exact isWs_false_of_isDigit c hc
  rw [hct]
  unfold parseValue
  rw [show skipWs (c :: t) = c :: t from by
    unfold skipWs
    rw [hwsc]
    rfl]
  simp only []
  have hnobr : (c = obrace) = False := by
    rcases hcor with hc | hc
    · rw [hc]
      exact eq_false (by decide)
    · exact ne_of_isDigit c hc obrace (by decide)
  have hnbk : (c = '[') = False := by
    rcases hcor with hc | hc
    · rw [hc]
      exact eq_false (by decide)
    · exact ne_of_isDigit c hc '[' (by decide)
  have hnq : (c = '"') = False := by
    rcases hcor with hc | hc
    · rw [hc]
      exact eq_false (by decide)
    · exact ne_of_isDigit c hc '"' (by decide)
  have hnt : (c = 't') = False := by
    rcases hcor with hc | hc
    · rw [hc]
      exact eq_false (by decide)
    · exact ne_of_isDigit c hc 't' (by decide)
  have hnf : (c = 'f') = False := by
    rcases hcor with hc | hc
    · rw [hc]
      exact eq_false (by decide)
    · exact ne_of_isDigit c hc 'f' (by decide)
  have hnn : (c = 'n') = False := by
    rcases hcor with hc | hc
    · rw [hc]
      exact eq_false (by decide)
    · exact ne_of_isDigit c hc 'n' (by decide)
  simp only [hnobr, hnbk, hnq, hnt, hnf, hnn, if_false]
  rw [if_pos hcor]
  rw [← hct, hpn]
  rfl

/-- Skipping whitespace before a non-whitespace head is the
identity. -/
theorem skipWs_nonWs (c : Char) (t : List Char) (h : isWs c = false) :
    skipWs (c :: t) = c :: t := by
  unfold skipWs
  rw [h]
  rfl

/-- The member parser inverts a two-member object body, with each
member a string key, a colon and an encoded value, and consumes the
closing brace. -/
theorem parseMembers_two (g : Nat) (k1 k2 : List Char) (v1 v2 : JsValue)
    (e1 e2 rest : List Char)
    (h1 : parseValue (g + 1)
        (e1 ++ (',' :: (encString k2 ++ (':' :: (e2 ++ (cbrace :: rest)))))) =
      some (v1, ',' :: (encString k2 ++ (':' :: (e2 ++ (cbrace :: rest))))))
    (h2 : parseValue g (e2 ++ (cbrace :: rest)) = some (v2, cbrace :: rest)) :
    parseMembers (g + 2)
        (encString k1 ++ (':' :: (e1 ++ (',' :: (encString k2 ++ (':' :: (e2 ++ (cbrace :: rest)))))))) [] =
      some (JsValue.obj [(k1, v1), (k2, v2)], rest) := by
  rw [show g + 2 = (g + 1) + 1 from rfl]
  unfold parseMembers
  rw [encString_shape k1]
  rw [skipWs_nonWs '"' _ (by decide)]
  simp only [if_true]
  rw [parseStringBody_escape k1 _ _ (escFuel k1 _)]
  simp only []
  rw [skipWs_nonWs ':' _ (by decide)]
  simp only [if_true]
  rw [h1]
  simp only []
  rw [skipWs_nonWs ',' _ (by decide)]
  simp only [if_true]
  unfold parseMembers
  rw [encString_shape k2]
  rw [skipWs_nonWs '"' _ (by decide)]
  simp only [if_true]
  rw [parseStringBody_escape k2 _ _ (escFuel k2 _)]
  simp only []
  rw [skipWs_nonWs ':' _ (by decide)]
  simp only [if_true]
  rw [h2]
  simp only []
  rw [skipWs_nonWs cbrace _ (by decide)]
  simp only [if_true, if_false]
  rw [if_neg (by decide : ¬cbrace = ',')]
  simp



/-- The value parser inverts the encoded metadata object, leaving any
continuation untouched. -/
theorem parseValue_innerMeta (g : Nat) (ec : ℤ) (dur : Dec) (hdur : dur.IsNormal)
    (R : List Char) :
    parseValue (g + 4)
        ((obrace :: (encString exitCodeKey ++ (':' :: (numToChars ⟨ec, 0⟩ ++
          (',' :: (encString durationSecondsKey ++ (':' :: (numToChars dur ++
            (cbrace :: []))))))))) ++ R) =
      some (trMeta ec dur, R) := by
  have h1 := parseValue_numToChars (g + 1) ⟨ec, 0⟩ (Or.inl rfl)
      (',' :: (encString durationSecondsKey ++ (':' :: (numToChars dur ++ (cbrace :: R)))))
      ⟨by decide, by decide, by decide, by decide⟩
  have h2 := parseValue_numToChars g dur hdur (cbrace :: R)
      ⟨by decide, by decide, by decide, by decide⟩
  have hm := parseMembers_two (g + 1) exitCodeKey durationSecondsKey
      (JsValue.num ⟨ec, 0⟩) (JsValue.num dur)
      (numToChars ⟨ec, 0⟩) (numToChars dur) R h1 h2
  simp only [List.cons_append, List.append_assoc, List.nil_append]
  rw [show g + 4 = (g + 3) + 1 from rfl]
  unfold parseValue
  rw [skipWs_nonWs obrace _ (by decide)]
  simp only []
  simp only [if_true]
  rw [encString_shape exitCodeKey] at hm ⊢
  rw [skipWs_nonWs '"' _ (by decide)]
  simp only []
  rw [if_neg (by decide : ¬ '"' = cbrace)]
  exact hm

/-- The value parser inverts the full tool-result encoding, consuming
the whole text. -/
theorem parseValue_encodeTR (g : Nat) (out : List Char) (ec : ℤ) (dur : Dec)
    (hdur : dur.IsNormal) :
    parseValue (g + 7) (encodeToolResult out ec dur) =
      some (trValue out ec dur, []) := by
  have key : encodeToolResult out ec dur =
      obrace :: (encString outputKey ++ (':' :: (encString out ++ (',' ::
        (encString metadataKey ++ (':' ::
          ((obrace :: (encString exitCodeKey ++ (':' :: (numToChars ⟨ec, 0⟩ ++
            (',' :: (encString durationSecondsKey ++ (':' :: (numToChars dur ++
              (cbrace :: []))))))))) ++ (cbrace :: ([] : List Char))))))))) := by
    simp [encodeToolResult]
  have h1 := parseValue_encString (g + 4) out
      (',' :: (encString metadataKey ++ (':' ::
        ((obrace :: (encString exitCodeKey ++ (':' :: (numToChars ⟨ec, 0⟩ ++
          (',' :: (encString durationSecondsKey ++ (':' :: (numToChars dur ++
            (cbrace :: []))))))))) ++ (cbrace :: ([] : List Char))))))
  have h2 := parseValue_innerMeta g ec dur hdur (cbrace :: ([] : List Char))
  have hm := parseMembers_two (g + 4) outputKey metadataKey
      (JsValue.str out) (trMeta ec dur) (encString out)
      (obrace :: (encString exitCodeKey ++ (':' :: (numToChars ⟨ec, 0⟩ ++
        (',' :: (encString durationSecondsKey ++ (':' :: (numToChars dur ++
          (cbrace :: [])))))))))
      [] h1 h2
  rw [key]
  rw [show g + 7 = (g + 6) + 1 from rfl]
  unfold parseValue
  rw [skipWs_nonWs obrace _ (by decide)]
  simp only []
  simp only [if_true]
  rw [encString_shape outputKey] at hm ⊢
  rw [skipWs_nonWs '"' _ (by decide)]
  simp only []
  rw [if_neg (by decide : ¬ '"' = cbrace)]
  exact hm

/-- JSON.parse inverts the full tool-result encoding. -/
theorem jsonParse_encodeTR (out : List Char) (ec : ℤ) (dur : Dec)
    (hdur : dur.IsNormal) :
    jsonParse (encodeToolResult out ec dur) = some (trValue out ec dur) := by
  have hlen : 6 ≤ (encodeToolResult out ec dur).length := by
    simp only [encodeToolResult, List.length_append, List.length_cons]
    omega
  obtain ⟨g, hg⟩ : ∃ g, (encodeToolResult out ec dur).length + 1 = g + 7 :=
    ⟨(encodeToolResult out ec dur).length - 6, by omega⟩
  unfold jsonParse
  rw [hg, parseValue_encodeTR g out ec dur hdur]
  rfl

/-- C8: round trip.  Encoding a well-formed tool result, with a text
output, an integer exit code and a canonical decimal duration, and
then decoding the text through parseToolCallOutput returns exactly
the output text and the metadata object: stage 1 parses the encoding
and destructures both properties unmodified. -/
theorem c8_roundTrip (out : List Char) (ec : ℤ) (dur : Dec) (hdur : dur.IsNormal) :
    parseToolCallOutput (encodeToolResult out ec dur) =
      ⟨some (JsValue.str out), some (trMeta ec dur)⟩ := by
  rw [stage1_shortCircuit _ _ (jsonParse_encodeTR out ec dur hdur) rfl]
  rfl

/-- C8 witness: the concrete tool result with output hello, exit code
zero and duration 1.5 seconds round-trips through the decoder. -/
theorem c8_witness :
    (Dec.mk 15 1).IsNormal ∧
      parseToolCallOutput (encodeToolResult (String.toList "hello") 0 ⟨15, 1⟩) =
        ⟨some (JsValue.str (String.toList "hello")), some (trMeta 0 ⟨15, 1⟩)⟩ :=
  ⟨Or.inr (by decide), c8_roundTrip (String.toList "hello") 0 ⟨15, 1⟩ (Or.inr (by decide))⟩

end DeepseekCodex
